import Mathlib

/-! # my-shell: a shallow embedding of `src/main.c`

A C string is modelled by the list of the characters that stand before its
terminator.  A function that writes into the buffer it is given returns the new
content of that buffer next to its C return value.  Calls into the operating
system (`execvp`, `fork`, `waitpid`, `chdir`, the output streams) are recorded as
a trace of `Action`s; what the operating system answers is read from an `Env`.
-/

namespace MyShell

/-- Text of a C string: the characters before the terminator. -/
abbrev CStr := List Char

/-! ## Constants of `main.c` -/

def COMMAND_MAX_LENGTH : Nat := 256
def MAX_COMMANDS_COUNT : Nat := 16
def NEWLINE_CHAR : Char := '\n'
def PIPE_CHAR : Char := '|'
def AMP_CHAR : Char := '&'
def AMP_STR : CStr := ['&']
def SPACE_STR : CStr := [' ']
def CD_CMD_STR : CStr := ['c', 'd']
def EXIT_CMD_STR : CStr := ['e', 'x', 'i', 't']
def EXIT_FAILURE : Nat := 1
def EXIT_SUCCESS : Nat := 0

/-! ## Library functions used by `main.c` -/

/-- The `isspace` of `<ctype.h>` in the C locale: space, `\t`, `\n`, `\v`, `\f`, `\r`. -/
def isspace (c : Char) : Bool :=
  c == ' ' || c == '\t' || c == '\n' || c == Char.ofNat 11 || c == Char.ofNat 12 || c == '\r'

/-- What one call of `strtok` leaves behind. -/
structure Strtok where
  /-- the returned token, `none` for a `NULL` return -/
  token : Option CStr
  /-- the text at the saved position, from which `strtok(NULL, _)` continues -/
  save : CStr
  /-- the text now seen from the start of the scanned string -/
  buffer : CStr
deriving DecidableEq

/-- The call `strtok(s, delim)`: skip the leading delimiters; with nothing left return
`NULL`; otherwise the token runs up to the next delimiter, which is overwritten by a
terminator, and the scan position is saved right after it.  `strtok(NULL, delim)` is
`strtok save delim` for the `save` of the previous call. -/
def strtok (s delim : CStr) : Strtok :=
  match s.dropWhile (fun c => delim.elem c) with
  | [] => { token := none, save := [], buffer := s }
  | c :: cs =>
    let tok := (c :: cs).takeWhile (fun d => !delim.elem d)
    { token := some tok
      save := ((c :: cs).dropWhile (fun d => !delim.elem d)).drop 1
      buffer := s.takeWhile (fun d => delim.elem d) ++ tok }

/-! ## `trim_ws` -/

/-- The second loop of `trim_ws`, `while (end > i_String && isspace(*end)) end--`, on the
text `body` that the advanced local pointer points to.  The counter is
`end - i_String + 1`, so `end > i_String` reads `2 ≤ counter`, and the result is the
index `end + 1` at which the terminator is then written. -/
def trim_end (body : CStr) : Nat → Nat
  | 0 => 0
  | 1 => 1
  | k + 2 => if isspace (body.getD (k + 1) (Char.ofNat 0)) then trim_end body (k + 1) else k + 2

/-- The function `trim_ws`.  The first loop advances the parameter `i_String`, a local
copy of the pointer, so the characters it passes stay in the buffer of the caller; the
terminator is written after the last character the second loop keeps; the value
returned is `strlen` of the advanced pointer.  Result: the buffer of the caller after
the call, and the returned length. -/
def trim_ws (s : CStr) : CStr × Nat :=
  let body := s.dropWhile isspace
  let k := trim_end body body.length
  (s.takeWhile isspace ++ body.take k, (body.take k).length)

/-- The function `is_not_empty_string`: `strcmp(i_String, SPACE_STR) != 0`. -/
def is_not_empty_string (s : CStr) : Bool := s != SPACE_STR

/-! ## `get_tokens` -/

/-- The `while (token != NULL)` loop of `get_tokens`.  `token` is the current token,
`save` the text at the position `strtok` saved.  Every later token is fetched by
`strtok(NULL, AMP_STR)`.  Each stored entry carries the size handed to `malloc` (the
value `trim_ws` returned, plus one) and the text `strcpy` copies.  The first argument
bounds the number of rounds; `save.length + 1` rounds are always enough
(`get_tokens_loop_fuel`). -/
def get_tokens_loop : Nat → Option CStr → CStr → List (Nat × CStr)
  | 0, _, _ => []
  | _ + 1, none, _ => []
  | n + 1, some token, save =>
    let t := trim_ws token
    let next := strtok save AMP_STR
    if is_not_empty_string t.1 then
      (t.2 + 1, t.1) :: get_tokens_loop n next.token next.save
    else
      get_tokens_loop n next.token next.save

/-- The entries `get_tokens(i_FullCmd, i_Delimiter, o_CmdsArray)` stores, in order, each
with its allocation size. -/
def get_tokens_alloc (i_FullCmd i_Delimiter : CStr) : List (Nat × CStr) :=
  let first := strtok i_FullCmd i_Delimiter
  get_tokens_loop (i_FullCmd.length + 1) first.token first.save

/-- The strings `get_tokens` stores into `o_CmdsArray`, in order; the value it returns
is the length of this list, and the sentinel is written at that index.  The list is
not cut at the capacity of the array the caller passes. -/
def get_tokens (i_FullCmd i_Delimiter : CStr) : List CStr :=
  (get_tokens_alloc i_FullCmd i_Delimiter).map Prod.snd

/-- The text of the buffer `i_FullCmd` after `get_tokens` has run on it: the first
`strtok` ends it after the first token, and `trim_ws` on that token may end it earlier.
Later tokens lie behind that terminator. -/
def get_tokens_buffer (i_FullCmd i_Delimiter : CStr) : CStr :=
  match (strtok i_FullCmd i_Delimiter).token with
  | none => i_FullCmd
  | some token => i_FullCmd.takeWhile (fun d => i_Delimiter.elem d) ++ (trim_ws token).1

/-! ## The command classifier -/

/-- The function `get_command`: copy the command, call `strtok(buffer, SPACE_STR)` and
return `buffer`, the start of the copy. -/
def get_command (i_Cmd : CStr) : CStr := (strtok i_Cmd SPACE_STR).buffer

/-- The function `get_arguments`: copy the command and advance over leading
whitespace. -/
def get_arguments (c_Cmd : CStr) : CStr := c_Cmd.dropWhile isspace

/-- The function `is_child`. -/
def is_child (i_Pid : Int) : Bool := i_Pid == 0

/-- The function `is_not_exit`: `strcmp(EXIT_CMD_STR, i_Cmd) != 0`. -/
def is_not_exit (i_Cmd : CStr) : Bool := EXIT_CMD_STR != i_Cmd

/-- The function `is_chdir`. -/
def is_chdir (i_Cmd : CStr) : Bool := get_command i_Cmd == CD_CMD_STR

/-- The function `has_bg_flag`: the character at index `length - 1` is `&`.  On the
empty string the C code reads the byte before the buffer; the model takes that byte
to differ from `&`. -/
def has_bg_flag (i_CmdBuffer : CStr) : Bool := i_CmdBuffer.getLast? == some AMP_CHAR

/-! ## The operating system as seen by the shell -/

/-- One observable step of the shell process, in program order. -/
inductive Action where
  /-- the call `show_cmd_prompt()` -/
  | prompt
  /-- the line `printf(BAD_SYNTAX_NEAR_TOKEN, argv[0], *fullCmd)` -/
  | bad_token (name : CStr) (c : Char)
  /-- the call `chdir(path)` -/
  | chdir (path : CStr)
  /-- the call `execute(command, i_runsInBackground)` made by `main` -/
  | call_execute (command : CStr) (bg : Bool)
  /-- the call `execvp(file, argv)` -/
  | execvp (file : CStr) (argv : List CStr)
  /-- the call `fork()` -/
  | fork
  /-- the line `fprintf(stderr, "ERROR: cannot start program %s\n", commandName)` -/
  | cannot_start (name : CStr)
  /-- the line `printf("[1] %d\n", pid)` -/
  | job (pid : Int)
  /-- the call `waitpid(pid, &status, 0)` -/
  | waitpid (pid : Int)
  /-- the line `printf(GOOD_BYE_MSG)` -/
  | farewell
deriving DecidableEq

/-- The answers of the operating system to the process that is followed. -/
structure Env where
  /-- whether `execvp(file, argv)` finds and starts the program (it then never returns) -/
  execvp_ok : CStr → List CStr → Bool
  /-- the value `fork()` returns while the given command is executed: `0` in the child -/
  fork_pid : CStr → Int
  /-- the status word `waitpid` stores for the child of the given command -/
  wait_status : CStr → Nat

/-- The macro `WEXITSTATUS`: bits 8 to 15 of the status word. -/
def WEXITSTATUS (status : Nat) : Nat := (status / 256) % 256

/-- The function `execute`.  Result: the trace of the call, and the value returned to the
caller, `none` when `execvp` succeeded and the process image is gone.  The code leaves
the pointer `argv` without a value before `get_tokens` writes through it; the model
takes it to point to an array that holds every token. -/
def execute (env : Env) (command : CStr) (i_runsInBackground : Bool) :
    List Action × Option Nat :=
  let commandName := get_command command
  let argv := get_tokens command SPACE_STR
  if i_runsInBackground then
    let pid := env.fork_pid command
    if is_child pid then
      if env.execvp_ok commandName argv then
        ([Action.fork, Action.execvp commandName argv], none)
      else
        ([Action.fork, Action.execvp commandName argv, Action.cannot_start commandName],
          some EXIT_FAILURE)
    else
      ([Action.fork, Action.job pid, Action.waitpid pid],
        some (WEXITSTATUS (env.wait_status command)))
  else
    if env.execvp_ok commandName argv then
      ([Action.execvp commandName argv], none)
    else
      ([Action.execvp commandName argv], some (WEXITSTATUS 0))

/-! ## The shell loop -/

/-- What `fgets(io_Buffer, COMMAND_MAX_LENGTH, stdin)` reads: at most `n` characters,
stopping after a newline.  Result: the text stored and the input left. -/
def fgets_take : Nat → CStr → CStr × CStr
  | 0, s => ([], s)
  | _ + 1, [] => ([], [])
  | n + 1, c :: s =>
    if c == NEWLINE_CHAR then ([c], s)
    else ((fgets_take n s).1.cons c, (fgets_take n s).2)

/-- The call `fgets(io_Buffer, COMMAND_MAX_LENGTH, stdin)`: `none` at end of input, where
the buffer is left as it was. -/
def fgets (stdin : CStr) : Option (CStr × CStr) :=
  match stdin with
  | [] => none
  | _ :: _ => some (fgets_take (COMMAND_MAX_LENGTH - 1) stdin)

/-- The function `read_cmd` once `fgets` has stored `line` in `io_Buffer`.  Result: the
buffer, the background flag, the returned length. -/
def read_cmd (line : CStr) : CStr × Bool × Nat :=
  let buf := (trim_ws line).1
  (buf, has_bg_flag buf, buf.length)

/-- How the `for` loop of `main` ends. -/
structure Dispatch where
  /-- the trace of the loop -/
  actions : List Action
  /-- the segment copied into `fullCmd` by the exit check, if the loop took the `break` -/
  adopted : Option CStr
  /-- whether the shell still runs: `false` when `execvp` replaced the process image -/
  alive : Bool
deriving DecidableEq

/-- The `for` loop of `main` over the stored segments. -/
def dispatch (env : Env) (bgFlag : Bool) : List CStr → Dispatch
  | [] => { actions := [], adopted := none, alive := true }
  | currentCommand :: rest =>
    if !is_not_exit currentCommand then
      { actions := [], adopted := some currentCommand, alive := true }
    else
      let cd := if is_chdir currentCommand then
        [Action.chdir (get_arguments currentCommand)] else []
      let run := execute env currentCommand bgFlag
      let here := cd ++ Action.call_execute currentCommand bgFlag :: run.1
      match run.2 with
      | none => { actions := here, adopted := none, alive := false }
      | some _ =>
        let later := dispatch env bgFlag rest
        { actions := here ++ later.actions, adopted := later.adopted, alive := later.alive }

/-- The state after one pass through the body of the `while` loop of `main`. -/
structure Iteration where
  /-- the trace of the pass, after the prompt -/
  actions : List Action
  /-- the text of `fullCmd` at the end of the pass -/
  fullCmd : CStr
  /-- whether the shell still runs: `false` when `execvp` replaced the process image -/
  alive : Bool
deriving DecidableEq

/-- The body of the `while` loop of `main` from `read_cmd` on, once `fgets` has stored
`line` in `fullCmd`; `name` is `argv[0]`. -/
def loop_iteration (env : Env) (name : CStr) (line : CStr) : Iteration :=
  let cmd := read_cmd line
  let fullCmd := cmd.1
  let bgFlag := cmd.2.1
  if fullCmd.head? == some AMP_CHAR || fullCmd.head? == some PIPE_CHAR then
    { actions := [Action.bad_token name (fullCmd.headD (Char.ofNat 0))],
      fullCmd := fullCmd, alive := true }
  else if fullCmd.head? == some NEWLINE_CHAR then
    { actions := [], fullCmd := fullCmd, alive := true }
  else
    let d := dispatch env bgFlag (get_tokens fullCmd AMP_STR)
    { actions := d.actions
      fullCmd := match d.adopted with
        | some currentCommand => currentCommand
        | none => get_tokens_buffer fullCmd AMP_STR
      alive := d.alive }

/-- How a run of `main` stands. -/
inductive Status where
  /-- the `while` loop is still going -/
  | running
  /-- a call of `execvp` replaced the process image -/
  | replaced
  /-- the function `main` returned the given code -/
  | exited (code : Nat)
deriving DecidableEq

/-- The function `main`, for at most the given number of evaluations of the `while`
condition: `stdin` is the input not yet read, `fullCmd` the text of the buffer (not
initialised by the code before the first test). -/
def main_loop (env : Env) (name : CStr) : Nat → CStr → CStr → List Action × Status
  | 0, _, _ => ([], Status.running)
  | n + 1, stdin, fullCmd =>
    if is_not_exit fullCmd then
      let read := match fgets stdin with
        | none => (fullCmd, stdin)
        | some got => got
      let it := loop_iteration env name read.1
      if it.alive then
        (Action.prompt :: it.actions ++ (main_loop env name n read.2 it.fullCmd).1,
          (main_loop env name n read.2 it.fullCmd).2)
      else
        (Action.prompt :: it.actions, Status.replaced)
    else
      ([Action.farewell], Status.exited EXIT_SUCCESS)

/-! ## What the specification describes -/

/-- The text `s` without its leading and trailing whitespace, as the specification of
the Trimmer words it. -/
def trimmed (s : CStr) : CStr := (s.dropWhile isspace).rdropWhile isspace

/-- An operating system in which `execvp` always fails, `fork` returns the child
identifier `4242` to the parent, and the child ends with status code `0`. -/
def failing_env : Env :=
  { execvp_ok := fun _ _ => false, fork_pid := fun _ => 4242, wait_status := fun _ => 0 }

/-- An operating system as the child of a `fork` sees it when its program cannot be
started: `fork` returns `0` and `execvp` always fails. -/
def child_env : Env :=
  { execvp_ok := fun _ _ => false, fork_pid := fun _ => 0, wait_status := fun _ => 0 }

/-- An operating system in which `execvp` starts the program `pwd` and no other, `fork`
returns the child identifier `4242` to the parent, and the child ends with status code
`0`. -/
def pwd_env : Env :=
  { execvp_ok := fun file _ => file == ['p', 'w', 'd'],
    fork_pid := fun _ => 4242, wait_status := fun _ => 0 }

/-- The explicit flag the specification proposes in place of the comparison of the
buffer: it is cleared when the exit check of the `for` loop fires in this pass and is
left set on every other path. -/
def should_continue (env : Env) (line : CStr) : Bool :=
  let cmd := read_cmd line
  if cmd.1.head? == some AMP_CHAR || cmd.1.head? == some PIPE_CHAR then true
  else if cmd.1.head? == some NEWLINE_CHAR then true
  else (dispatch env cmd.2.1 (get_tokens cmd.1 AMP_STR)).adopted.isNone

/-- The first whitespace-delimited word of `s`, as the specification of the Command
Classifier words it: skip the leading whitespace, stop before the next whitespace
character of any kind. -/
def first_word (s : CStr) : CStr := (s.dropWhile isspace).takeWhile (fun c => !isspace c)

/-! ## Readings of the traces and of the array writes -/

/-- The trace of one round of the `for` loop of `main` on a segment that is not `exit`:
the call of `chdir` if `is_chdir` holds, then the call of `execute`. -/
def segment_actions (env : Env) (bgFlag : Bool) (currentCommand : CStr) : List Action :=
  (if is_chdir currentCommand then [Action.chdir (get_arguments currentCommand)] else [])
    ++ Action.call_execute currentCommand bgFlag :: (execute env currentCommand bgFlag).1

/-- The commands handed to `execute` by `main` in a trace, in order. -/
def executed : List Action → List CStr
  | [] => []
  | Action.call_execute command _ :: rest => command :: executed rest
  | _ :: rest => executed rest

/-- The indices of `o_CmdsArray` that `get_tokens` writes: `size` for each stored token,
counted up from zero by `size++`, and the final `size` for the sentinel. -/
def get_tokens_indices (i_FullCmd i_Delimiter : CStr) : List Nat :=
  List.range ((get_tokens i_FullCmd i_Delimiter).length + 1)

/-! ## Facts about `trim_ws` -/

theorem isspace_head_dropWhile (s : CStr) :
    ∀ c, (s.dropWhile isspace).head? = some c → isspace c = false := by
  induction s with
  | nil => intro c h; simp at h
  | cons a t ih =>
    intro c h
    by_cases ha : isspace a = true
    · rw [List.dropWhile_cons_of_pos ha] at h
      exact ih c h
    · rw [List.dropWhile_cons_of_neg ha] at h
      simp only [List.head?_cons, Option.some.injEq] at h
      subst h
      simpa using ha

/-- The second loop of `trim_ws` cuts exactly the trailing whitespace of a text that does
not start with whitespace. -/
theorem trim_end_take (body : CStr) (h0 : ∀ c, body.head? = some c → isspace c = false) :
    ∀ k, k ≤ body.length → body.take (trim_end body k) = (body.take k).rdropWhile isspace := by
  intro k
  induction k with
  | zero => intro _; simp [trim_end]
  | succ k ih =>
    intro hk
    cases k with
    | zero =>
      cases body with
      | nil => simp at hk
      | cons c cs =>
        have hc : isspace c = false := h0 c rfl
        simp [trim_end, List.rdropWhile_singleton, hc]
    | succ j =>
      have hj : j + 1 < body.length := by omega
      have htake : body.take (j + 1 + 1) = body.take (j + 1) ++ [body[j + 1]] := by
        rw [List.take_succ, List.getElem?_eq_getElem hj]; rfl
      have hget : body.getD (j + 1) (Char.ofNat 0) = body[j + 1] := List.getD_eq_getElem _ _ hj
      rw [htake]
      by_cases hs : isspace body[j + 1] = true
      · have ht : trim_end body (j + 1 + 1) = trim_end body (j + 1) := by
          rw [trim_end, hget, if_pos hs]
        rw [List.rdropWhile_concat_pos _ _ _ hs, ← ih (by omega), ht]
      · have ht : trim_end body (j + 1 + 1) = j + 1 + 1 := by
          rw [trim_end, hget, if_neg hs]
        rw [List.rdropWhile_concat_neg _ _ _ hs, ← htake, ht]

/-- What `trim_ws` does to every buffer: the leading whitespace stays in the buffer of
the caller, the trailing whitespace goes, and the value returned is the length without
either. -/
theorem trim_ws_eq (s : CStr) :
    trim_ws s = (s.takeWhile isspace ++ trimmed s, (trimmed s).length) := by
  have h := trim_end_take (s.dropWhile isspace) (isspace_head_dropWhile s)
    (s.dropWhile isspace).length (le_refl _)
  rw [List.take_length] at h
  simp only [trim_ws, trimmed, h]

/-- A text that neither starts nor ends with whitespace is left as it is. -/
theorem trim_ws_of_clean (s : CStr) (h0 : ∀ c, s.head? = some c → isspace c = false)
    (h1 : ∀ c, s.getLast? = some c → isspace c = false) : trim_ws s = (s, s.length) := by
  have hd : s.dropWhile isspace = s := by
    cases s with
    | nil => rfl
    | cons a t => exact List.dropWhile_cons_of_neg (by simp [h0 a rfl])
  have hr : s.rdropWhile isspace = s := by
    rw [List.rdropWhile_eq_self_iff]
    intro hl
    have := h1 (s.getLast hl) (List.getLast?_eq_getLast _ hl)
    simp [this]
  have ht : trimmed s = s := by rw [trimmed, hd, hr]
  have hk : s.takeWhile isspace = [] := by
    cases s with
    | nil => rfl
    | cons a t => exact List.takeWhile_cons_of_neg (by simp [h0 a rfl])
  rw [trim_ws_eq, ht, hk, List.nil_append]

/-! ## Facts about `get_tokens` -/

theorem get_tokens_loop_none (n : Nat) (save : CStr) : get_tokens_loop n none save = [] := by
  cases n <;> rfl

theorem strtok_save_length (s delim t : CStr) (h : (strtok s delim).token = some t) :
    (strtok s delim).save.length < s.length := by
  have hle : (s.dropWhile (fun c => delim.elem c)).length ≤ s.length :=
    (List.dropWhile_sublist _).length_le
  unfold strtok at h ⊢
  cases heq : s.dropWhile (fun c => delim.elem c) with
  | nil => rw [heq] at h; simp at h
  | cons c cs =>
    rw [heq] at hle
    have h2 : ((c :: cs).dropWhile (fun d => !delim.elem d)).length ≤ (c :: cs).length :=
      (List.dropWhile_sublist _).length_le
    simp only [List.length_drop, List.length_cons] at h2 hle ⊢
    omega

/-- The bound on the rounds of the loop of `get_tokens` is never reached: with more
rounds than characters left the result does not depend on the bound. -/
theorem get_tokens_loop_fuel (n m : Nat) (token : Option CStr) (save : CStr)
    (hn : save.length < n) (hm : save.length < m) :
    get_tokens_loop n token save = get_tokens_loop m token save := by
  induction n generalizing m token save with
  | zero => omega
  | succ n ih =>
    cases m with
    | zero => omega
    | succ m =>
      cases token with
      | none => rfl
      | some tok =>
        have key : get_tokens_loop n (strtok save AMP_STR).token (strtok save AMP_STR).save
            = get_tokens_loop m (strtok save AMP_STR).token (strtok save AMP_STR).save := by
          cases hnext : (strtok save AMP_STR).token with
          | none => rw [get_tokens_loop_none, get_tokens_loop_none]
          | some t =>
            have hlt := strtok_save_length save AMP_STR t hnext
            rw [← hnext]
            exact ih m _ _ (by omega) (by omega)
        simp only [get_tokens_loop, key]

/-! ## Facts about `execute` and the loop of `main` -/

/-- In the foreground `execute` does nothing but call `execvp`. -/
theorem execute_foreground (env : Env) (command : CStr) :
    (execute env command false).1
      = [Action.execvp (get_command command) (get_tokens command SPACE_STR)] := by
  unfold execute
  simp only [Bool.false_eq_true, if_false]
  split <;> rfl

/-- In the foreground `execute` returns exactly when `execvp` fails. -/
theorem execute_foreground_returns (env : Env) (command : CStr) :
    (execute env command false).2.isSome
      = !env.execvp_ok (get_command command) (get_tokens command SPACE_STR) := by
  unfold execute
  simp only [Bool.false_eq_true, if_false]
  split <;> simp_all

/-- The trace of `execute` holds no call of `execute`. -/
theorem execute_no_call (env : Env) (command c : CStr) (bg b : Bool) :
    Action.call_execute c b ∉ (execute env command bg).1 := by
  unfold execute
  cases bg with
  | true =>
    simp only [if_true]
    by_cases hc : is_child (env.fork_pid command) = true
    · by_cases he : env.execvp_ok (get_command command) (get_tokens command SPACE_STR) = true
      · simp [hc, he]
      · simp [hc, he]
    · simp [hc]
  | false =>
    simp only [Bool.false_eq_true, if_false]
    by_cases he : env.execvp_ok (get_command command) (get_tokens command SPACE_STR) = true
    · simp [he]
    · simp [he]

/-- The `for` loop on a single segment that is not `exit`. -/
theorem dispatch_single (env : Env) (bg : Bool) (seg : CStr) (h : is_not_exit seg = true) :
    dispatch env bg [seg] =
      { actions := (if is_chdir seg then [Action.chdir (get_arguments seg)] else [])
          ++ Action.call_execute seg bg :: (execute env seg bg).1
        adopted := none
        alive := (execute env seg bg).2.isSome } := by
  unfold dispatch
  simp only [h, Bool.not_true, Bool.false_eq_true, if_false]
  cases (execute env seg bg).2 with
  | none => simp
  | some v => simp [dispatch]

/-- Every call of `execute` in the `for` loop is given the flag of the line. -/
theorem dispatch_call_flag (env : Env) (bgFlag : Bool) (segs : List CStr) (c : CStr) (b : Bool)
    (h : Action.call_execute c b ∈ (dispatch env bgFlag segs).actions) : b = bgFlag := by
  induction segs with
  | nil => simp [dispatch] at h
  | cons seg rest ih =>
    unfold dispatch at h
    by_cases hx : is_not_exit seg = true
    · simp only [hx, Bool.not_true, Bool.false_eq_true, if_false] at h
      have hno := execute_no_call env seg c bgFlag b
      cases hrun : (execute env seg bgFlag).2 with
      | none =>
        rw [hrun] at h
        simp only [List.mem_append, List.mem_cons] at h
        rcases h with h | h | h
        · split at h <;> simp at h
        · simp only [Action.call_execute.injEq] at h; exact h.2
        · exact absurd h hno
      | some v =>
        rw [hrun] at h
        simp only [List.mem_append, List.mem_cons] at h
        rcases h with (h | h | h) | h
        · split at h <;> simp at h
        · simp only [Action.call_execute.injEq] at h; exact h.2
        · exact absurd h hno
        · exact ih h
    · simp [hx] at h

/-- One pass of the `while` loop on a line that passes both checks of `main`. -/
theorem loop_iteration_dispatch (env : Env) (name line : CStr)
    (h1 : ((read_cmd line).1.head? == some AMP_CHAR
      || (read_cmd line).1.head? == some PIPE_CHAR) = false)
    (h2 : ((read_cmd line).1.head? == some NEWLINE_CHAR) = false) :
    loop_iteration env name line =
      { actions := (dispatch env (read_cmd line).2.1 (get_tokens (read_cmd line).1 AMP_STR)).actions
        fullCmd :=
          match (dispatch env (read_cmd line).2.1 (get_tokens (read_cmd line).1 AMP_STR)).adopted with
          | some currentCommand => currentCommand
          | none => get_tokens_buffer (read_cmd line).1 AMP_STR
        alive := (dispatch env (read_cmd line).2.1 (get_tokens (read_cmd line).1 AMP_STR)).alive } := by
  unfold loop_iteration
  simp only [h1, h2, Bool.false_eq_true, if_false]

/-- One pass of the `while` loop on a line that yields the single segment `seg`, in the
foreground. -/
theorem loop_iteration_single (env : Env) (name line buf seg : CStr) (n : Nat)
    (hr : read_cmd line = (buf, false, n))
    (h1 : (buf.head? == some AMP_CHAR || buf.head? == some PIPE_CHAR) = false)
    (h2 : (buf.head? == some NEWLINE_CHAR) = false)
    (ht : get_tokens buf AMP_STR = [seg]) (hx : is_not_exit seg = true) :
    loop_iteration env name line =
      { actions := (if is_chdir seg then [Action.chdir (get_arguments seg)] else [])
          ++ [Action.call_execute seg false,
              Action.execvp (get_command seg) (get_tokens seg SPACE_STR)]
        fullCmd := get_tokens_buffer buf AMP_STR
        alive := !env.execvp_ok (get_command seg) (get_tokens seg SPACE_STR) } := by
  rw [loop_iteration_dispatch env name line (by rw [hr]; exact h1) (by rw [hr]; exact h2)]
  simp only [hr, ht, dispatch_single env false seg hx, execute_foreground,
    execute_foreground_returns]

/-- The `for` loop stops at a segment that is `exit` and adopts it. -/
theorem dispatch_exit (env : Env) (bg : Bool) (seg : CStr) (rest : List CStr)
    (h : is_not_exit seg = false) :
    dispatch env bg (seg :: rest) = { actions := [], adopted := some seg, alive := true } := by
  unfold dispatch
  simp only [h, Bool.not_false, if_true]

/-- With the text `exit` in the buffer `main` leaves its loop and prints the farewell. -/
theorem main_loop_exit (env : Env) (name stdin fullCmd : CStr) (n : Nat)
    (h : is_not_exit fullCmd = false) :
    main_loop env name (n + 1) stdin fullCmd
      = ([Action.farewell], Status.exited EXIT_SUCCESS) := by
  rw [main_loop]
  simp only [h, Bool.false_eq_true, if_false]

/-- One pass of the `while` loop of `main` that the process survives. -/
theorem main_loop_step (env : Env) (name stdin fullCmd line rest : CStr) (n : Nat)
    (h : is_not_exit fullCmd = true) (hread : fgets stdin = some (line, rest))
    (halive : (loop_iteration env name line).alive = true) :
    main_loop env name (n + 1) stdin fullCmd
      = (Action.prompt :: (loop_iteration env name line).actions
            ++ (main_loop env name n rest (loop_iteration env name line).fullCmd).1,
          (main_loop env name n rest (loop_iteration env name line).fullCmd).2) := by
  rw [main_loop]
  simp only [h, if_true, hread, halive]

/-! ## Facts used for the argument vector and the background flag -/

theorem strtok_nil (delim : CStr) : (strtok [] delim).token = none := rfl

/-- The call of `strtok` on a text that does not start with a delimiter. -/
theorem strtok_of_head (c : Char) (cs delim : CStr) (h : delim.elem c = false) :
    strtok (c :: cs) delim =
      { token := some ((c :: cs).takeWhile (fun d => !delim.elem d))
        save := ((c :: cs).dropWhile (fun d => !delim.elem d)).drop 1
        buffer := (c :: cs).takeWhile (fun d => delim.elem d)
          ++ (c :: cs).takeWhile (fun d => !delim.elem d) } := by
  unfold strtok
  rw [List.dropWhile_cons_of_neg (by simpa using h)]

/-- A text that starts with a character other than whitespace is not the text of one
blank. -/
theorem is_not_empty_string_of_head (t : CStr) (c : Char) (h : t.head? = some c)
    (hc : isspace c = false) : is_not_empty_string t = true := by
  unfold is_not_empty_string SPACE_STR
  rw [bne_iff_ne]
  intro ht
  subst ht
  simp only [List.head?_cons, Option.some.injEq] at h
  subst h
  exact absurd hc (by decide)

/-- The last round of the loop of `get_tokens`: a token without whitespace at either end
and nothing left to scan. -/
theorem get_tokens_loop_last (n : Nat) (t : CStr) (c : Char) (h : t.head? = some c)
    (hc : isspace c = false) (h1 : ∀ x, t.getLast? = some x → isspace x = false) :
    get_tokens_loop (n + 1) (some t) [] = [(t.length + 1, t)] := by
  have h0 : ∀ x, t.head? = some x → isspace x = false := by
    intro x hx
    rw [h] at hx
    simp only [Option.some.injEq] at hx
    subst hx
    exact hc
  rw [get_tokens_loop]
  simp only [trim_ws_of_clean t h0 h1, is_not_empty_string_of_head t c h hc, if_true,
    strtok_nil, get_tokens_loop_none]

/-- The last two rounds of the loop of `get_tokens`: a token without whitespace at either
end, and a rest without `&` and without whitespace at either end. -/
theorem get_tokens_loop_two (n : Nat) (t save : CStr) (c d : Char) (h : t.head? = some c)
    (hc : isspace c = false) (h1 : ∀ x, t.getLast? = some x → isspace x = false)
    (hs : save.head? = some d) (hd : isspace d = false)
    (hs1 : ∀ x, save.getLast? = some x → isspace x = false) (hamp : AMP_CHAR ∉ save) :
    get_tokens_loop (n + 2) (some t) save = [(t.length + 1, t), (save.length + 1, save)] := by
  have h0 : ∀ x, t.head? = some x → isspace x = false := by
    intro x hx
    rw [h] at hx
    simp only [Option.some.injEq] at hx
    subst hx
    exact hc
  have hall : ∀ x ∈ save, (!AMP_STR.elem x) = true := by
    intro x hx
    have hne : x ≠ AMP_CHAR := fun e => hamp (e ▸ hx)
    simp [AMP_STR, AMP_CHAR] at hne ⊢
    exact hne
  have htake : save.takeWhile (fun x => !AMP_STR.elem x) = save :=
    List.takeWhile_eq_self_iff.mpr hall
  have hdrop : save.dropWhile (fun x => !AMP_STR.elem x) = [] :=
    List.dropWhile_eq_nil_iff.mpr hall
  have hnext : strtok save AMP_STR = { token := some save, save := [], buffer := save } := by
    cases save with
    | nil => simp at hs
    | cons e es =>
      have he : AMP_STR.elem e = false := by
        have := hall e (List.mem_cons_self _ _)
        simpa using this
      rw [strtok_of_head e es AMP_STR he, htake, hdrop]
      have hlead : (e :: es).takeWhile (fun x => AMP_STR.elem x) = [] :=
        List.takeWhile_cons_of_neg (by simpa using he)
      rw [hlead]
      rfl
  rw [get_tokens_loop]
  simp only [trim_ws_of_clean t h0 h1, is_not_empty_string_of_head t c h hc, if_true, hnext,
    get_tokens_loop_last n save d hs hd hs1]

theorem filter_dropWhile_isspace (s : CStr) :
    (s.dropWhile isspace).filter (fun c => !isspace c) = s.filter (fun c => !isspace c) := by
  induction s with
  | nil => rfl
  | cons a t ih =>
    by_cases ha : isspace a = true
    · rw [List.dropWhile_cons_of_pos ha, ih, List.filter_cons_of_neg (by simp [ha])]
    · rw [List.dropWhile_cons_of_neg ha]

theorem getLast?_rdropWhile_isspace (l : CStr) :
    (l.rdropWhile isspace).getLast? = (l.filter (fun c => !isspace c)).getLast? := by
  induction l using List.reverseRecOn with
  | nil => rfl
  | append_singleton l a ih =>
    by_cases ha : isspace a = true
    · rw [List.rdropWhile_concat_pos _ _ _ ha, ih, List.filter_append,
        List.filter_cons_of_neg (by simp [ha])]
      simp
    · rw [List.rdropWhile_concat_neg _ _ _ ha, List.filter_append,
        List.filter_cons_of_pos (by simpa using ha)]
      simp

/-- The last character of the text without its leading and trailing whitespace is the
last character of the text that is not whitespace. -/
theorem getLast?_trimmed (s : CStr) :
    (trimmed s).getLast? = (s.filter (fun c => !isspace c)).getLast? := by
  rw [trimmed, getLast?_rdropWhile_isspace, filter_dropWhile_isspace]

theorem trimmed_ne_nil (s : CStr) (h : ∃ c ∈ s, isspace c = false) : trimmed s ≠ [] := by
  obtain ⟨c, hc, hs⟩ := h
  intro hnil
  have hl := getLast?_trimmed s
  rw [hnil] at hl
  have hmem : c ∈ s.filter (fun c => !isspace c) := by
    rw [List.mem_filter]
    exact ⟨hc, by simp [hs]⟩
  have : s.filter (fun c => !isspace c) = [] := by
    rw [← List.getLast?_eq_none_iff]
    exact hl.symm
  rw [this] at hmem
  simp at hmem

/-- The flag `read_cmd` computes on a line that holds a character other than
whitespace. -/
theorem read_cmd_flag (line : CStr) (h : ∃ c ∈ line, isspace c = false) :
    (read_cmd line).2.1 = ((line.filter (fun c => !isspace c)).getLast? == some AMP_CHAR) := by
  unfold read_cmd has_bg_flag
  simp only [trim_ws_eq]
  rw [List.getLast?_append_of_ne_nil _ (trimmed_ne_nil line h), getLast?_trimmed]

/-! ## The claims -/

/-- C1: on the line `ls & pwd &whoami` the call `get_tokens(line, "&", out)` stores three
segments, and the second one is ` pwd` with its leading blank, not `pwd`: only the
trailing whitespace of a piece is removed. -/
theorem C1_get_tokens_keeps_leading_blank :
    get_tokens "ls & pwd &whoami".toList AMP_STR
        = ["ls".toList, " pwd".toList, "whoami".toList]
      ∧ get_tokens "ls & pwd &whoami".toList AMP_STR
        ≠ ["ls".toList, "pwd".toList, "whoami".toList]
      ∧ (get_tokens "ls & pwd &whoami".toList AMP_STR).length = 3 := by
  decide

/-- C2: on the buffer ` pwd ` the call `trim_ws` leaves ` pwd` in the buffer of the
caller, which is not the text without its leading whitespace, and returns 3, which is
not the length 4 of the buffer; the all-whitespace buffer of two blanks and a newline
is left unchanged, not emptied. -/
theorem C2_trim_ws_keeps_leading_whitespace :
    trim_ws " pwd ".toList = (" pwd".toList, 3)
      ∧ (trim_ws " pwd ".toList).1 ≠ trimmed " pwd ".toList
      ∧ (trim_ws " pwd ".toList).2 ≠ (trim_ws " pwd ".toList).1.length
      ∧ trim_ws "  \n".toList = ("  \n".toList, 0) := by
  decide

/-- C3: on the line of three blanks and a newline one pass of the loop of `main` calls
`execute` with the whole line as its command, which then calls `execvp`. -/
theorem C3_blank_line_is_executed (env : Env) (name : CStr) :
    (loop_iteration env name "   \n".toList).actions
      = [Action.call_execute "   \n".toList false,
         Action.execvp "   \n".toList ["\n".toList]] := by
  rw [loop_iteration_single env name "   \n".toList "   \n".toList "   \n".toList 4
    (by decide) (by decide) (by decide) (by decide) (by decide)]
  dsimp only
  decide

/-- C4: on the line ` &ls`, where a blank stands before the `&`, one pass of the loop of
`main` prints no error message and calls `execute` for the segment `ls`. -/
theorem C4_leading_blank_hides_bad_token (env : Env) (name : CStr) :
    (loop_iteration env name " &ls\n".toList).actions
      = [Action.call_execute "ls".toList false,
         Action.execvp "ls".toList ["ls".toList]] := by
  rw [loop_iteration_single env name " &ls\n".toList " &ls".toList "ls".toList 4
    (by decide) (by decide) (by decide) (by decide) (by decide)]
  dsimp only
  decide

/-- C5: `is_not_exit` is false exactly on the text `exit`; the line `exit` takes `main`
out of its loop with the farewell printed once and no call of `execute`, whatever the
buffer held before; the line `exitnow` is handed to `execute`, which calls `execvp` for
the program `exitnow`, leaves a buffer that keeps the loop going, and the shell process
goes on exactly when that `execvp` fails. -/
theorem C5_exit_is_exact_match :
    (∀ s : CStr, is_not_exit s = false ↔ s = "exit".toList)
    ∧ (∀ (env : Env) (name stdin fullCmd : CStr) (n : Nat),
        main_loop env name (n + 2) ("exit\n".toList ++ stdin) fullCmd
          = ((if is_not_exit fullCmd then [Action.prompt] else []) ++ [Action.farewell],
              Status.exited EXIT_SUCCESS))
    ∧ (∀ (env : Env) (name : CStr),
        (loop_iteration env name "exitnow\n".toList).actions
            = [Action.call_execute "exitnow".toList false,
               Action.execvp "exitnow".toList ["exitnow".toList]]
          ∧ get_command "exitnow".toList = "exitnow".toList
          ∧ is_not_exit (loop_iteration env name "exitnow\n".toList).fullCmd = true
          ∧ (loop_iteration env name "exitnow\n".toList).alive
              = !env.execvp_ok "exitnow".toList ["exitnow".toList]) := by
  refine ⟨?_, ?_, ?_⟩
  · intro s
    unfold is_not_exit
    constructor
    · intro h
      have h2 : EXIT_CMD_STR = s := by simpa using h
      rw [← h2]; rfl
    · intro h
      subst h
      decide
  · intro env name stdin fullCmd n
    have hread : fgets ("exit\n".toList ++ stdin) = some ("exit\n".toList, stdin) := rfl
    have hx : is_not_exit "exit".toList = false := by decide
    have hit : loop_iteration env name "exit\n".toList
        = { actions := [], fullCmd := "exit".toList, alive := true } := by
      rw [loop_iteration_dispatch env name "exit\n".toList (by decide) (by decide)]
      have hr : read_cmd "exit\n".toList = ("exit".toList, false, 4) := by decide
      have ht : get_tokens "exit".toList AMP_STR = ["exit".toList] := by decide
      rw [hr]
      dsimp only
      rw [ht, dispatch_exit env false _ [] hx]
    by_cases hb : is_not_exit fullCmd = true
    · rw [main_loop_step env name _ fullCmd _ _ (n + 1) hb hread (by rw [hit]), hit]
      dsimp only
      rw [main_loop_exit env name stdin _ n hx, if_pos hb]
    · have hb2 : is_not_exit fullCmd = false := by simpa using hb
      rw [main_loop_exit env name _ fullCmd (n + 1) hb2, if_neg hb]
      rfl
  · intro env name
    rw [loop_iteration_single env name "exitnow\n".toList "exitnow".toList "exitnow".toList 7
      (by decide) (by decide) (by decide) (by decide) (by decide)]
    dsimp only
    refine ⟨by decide, by decide, by decide, ?_⟩
    have h1 : get_command "exitnow".toList = "exitnow".toList := by decide
    have h2 : get_tokens "exitnow".toList SPACE_STR = ["exitnow".toList] := by decide
    rw [h1, h2]

/-- C6: for the segment `cd /tmp` the text `get_arguments` returns, which `main` passes
to `chdir`, is the whole segment `cd /tmp` and not the path `/tmp`. -/
theorem C6_get_arguments_keeps_command_word (env : Env) (bgFlag : Bool) :
    get_arguments "cd /tmp".toList = "cd /tmp".toList
      ∧ get_arguments "cd /tmp".toList ≠ "/tmp".toList
      ∧ (dispatch env bgFlag ["cd /tmp".toList]).actions.head?
          = some (Action.chdir "cd /tmp".toList) := by
  refine ⟨by decide, by decide, ?_⟩
  rw [dispatch_single env bgFlag "cd /tmp".toList (by decide)]
  have h : is_chdir "cd /tmp".toList = true := by decide
  simp only [h, if_true]
  rfl

/-- C7: on the line `cd /tmp`, whose segment `is_chdir` accepts, one pass of the loop of
`main` calls `chdir` and then also calls `execute` for the same segment, which calls
`execvp` for the program `cd`. -/
theorem C7_cd_is_also_executed (env : Env) (name : CStr) :
    is_chdir "cd /tmp".toList = true
      ∧ (loop_iteration env name "cd /tmp\n".toList).actions
          = [Action.chdir "cd /tmp".toList,
             Action.call_execute "cd /tmp".toList false,
             Action.execvp "cd".toList ["cd".toList, "/tmp".toList]] := by
  refine ⟨by decide, ?_⟩
  rw [loop_iteration_single env name "cd /tmp\n".toList "cd /tmp".toList "cd /tmp".toList 7
    (by decide) (by decide) (by decide) (by decide) (by decide)]
  dsimp only
  decide

/-- C8: for the segment `ls -l -a` the argument vector `get_tokens(segment, " ", argv)`
builds has two entries, `ls` and `-l -a`, not the three words: only the first token is
cut at a blank, every later one at `&`; this is the vector `execute` hands to `execvp`. -/
theorem C8_argv_splits_first_word_only (env : Env) :
    get_tokens "ls -l -a".toList SPACE_STR = ["ls".toList, "-l -a".toList]
      ∧ get_tokens "ls -l -a".toList SPACE_STR ≠ ["ls".toList, "-l".toList, "-a".toList]
      ∧ (execute env "ls -l -a".toList false).1
          = [Action.execvp "ls".toList ["ls".toList, "-l -a".toList]] := by
  refine ⟨by decide, by decide, ?_⟩
  rw [execute_foreground]
  decide

/-- C9: round trip.  For a segment that is not empty, neither starts nor ends with
whitespace, holds no `&` and no two adjacent whitespace characters, the tokens
`get_tokens(segment, " ", argv)` stores, joined by single blanks, give the segment
back. -/
theorem C9_round_trip (segment : CStr) (hne : segment ≠ [])
    (h0 : ∀ c, segment.head? = some c → isspace c = false)
    (h1 : ∀ c, segment.getLast? = some c → isspace c = false)
    (hamp : AMP_CHAR ∉ segment)
    (hadj : segment.Chain' (fun a b => ¬(isspace a = true ∧ isspace b = true))) :
    List.intercalate SPACE_STR (get_tokens segment SPACE_STR) = segment := by
  cases hseg : segment with
  | nil => exact absurd hseg hne
  | cons c cs =>
    rw [← hseg]
    have hc : isspace c = false := h0 c (by rw [hseg]; rfl)
    have hcsp : SPACE_STR.elem c = false := by
      have : c ≠ ' ' := by
        intro e
        rw [e] at hc
        exact absurd hc (by decide)
      simpa [SPACE_STR] using this
    have hsplit : segment.takeWhile (fun d => !SPACE_STR.elem d)
        ++ segment.dropWhile (fun d => !SPACE_STR.elem d) = segment :=
      List.takeWhile_append_dropWhile _ _
    have htokhead : (segment.takeWhile (fun d => !SPACE_STR.elem d)).head? = some c := by
      rw [hseg, List.takeWhile_cons_of_pos (by simpa using hcsp)]
      rfl
    have hfirst : get_tokens segment SPACE_STR
        = (get_tokens_loop (segment.length + 1)
            (some (segment.takeWhile (fun d => !SPACE_STR.elem d)))
            ((segment.dropWhile (fun d => !SPACE_STR.elem d)).drop 1)).map Prod.snd := by
      unfold get_tokens get_tokens_alloc
      rw [hseg, strtok_of_head c cs SPACE_STR hcsp]
    rw [hfirst]
    cases hrest : segment.dropWhile (fun d => !SPACE_STR.elem d) with
    | nil =>
      rw [hrest, List.append_nil] at hsplit
      rw [hsplit] at htokhead ⊢
      rw [List.drop_nil, get_tokens_loop_last segment.length segment c htokhead hc h1]
      simp [List.intercalate]
    | cons r save =>
      have hr : r = ' ' := by
        have hnot := List.head?_dropWhile_not (fun d => !SPACE_STR.elem d) segment
        rw [hrest] at hnot
        simpa [SPACE_STR] using hnot
      subst hr
      rw [hrest] at hsplit
      have hchain := hadj
      rw [← hsplit, List.chain'_append] at hchain
      obtain ⟨_, hright, hmid⟩ := hchain
      have htok1 : ∀ x, (segment.takeWhile (fun d => !SPACE_STR.elem d)).getLast? = some x →
          isspace x = false := by
        intro x hx
        have := hmid x hx ' ' rfl
        by_contra hcon
        exact this ⟨by simpa using hcon, by decide⟩
      have hsave_ne : save ≠ [] := by
        intro e
        have hl : segment.getLast? = some ' ' := by
          rw [← hsplit, e, List.getLast?_append_of_ne_nil _ (List.cons_ne_nil _ _)]
          rfl
        exact absurd (h1 ' ' hl) (by decide)
      obtain ⟨d, ds, hds⟩ := List.exists_cons_of_ne_nil hsave_ne
      have hd : isspace d = false := by
        rw [List.chain'_cons'] at hright
        have := hright.1 d (by rw [hds]; rfl)
        by_contra hcon
        exact this ⟨by decide, by simpa using hcon⟩
      have hsave1 : ∀ x, save.getLast? = some x → isspace x = false := by
        intro x hx
        apply h1 x
        rw [← hsplit, List.getLast?_append_of_ne_nil _ (List.cons_ne_nil _ _)]
        rw [hds] at hx ⊢
        rw [List.getLast?_cons_cons]
        exact hx
      have hsave_amp : AMP_CHAR ∉ save := by
        intro hm
        apply hamp
        rw [← hsplit]
        exact List.mem_append_right _ (List.mem_cons_of_mem _ hm)
      obtain ⟨m, hm⟩ : ∃ m, segment.length + 1 = m + 2 := by
        refine ⟨segment.length - 1, ?_⟩
        have : 0 < segment.length := by rw [hseg]; simp
        omega
      rw [hm, List.drop_one, List.tail_cons,
        get_tokens_loop_two m _ save c d htokhead hc htok1 (by rw [hds]; rfl) hd hsave1 hsave_amp]
      conv_rhs => rw [← hsplit]
      simp [List.intercalate, SPACE_STR]

/-- C9, an instance: the segment `ls -l -a` meets every condition and is given back. -/
theorem C9_round_trip_witness :
    List.intercalate SPACE_STR (get_tokens "ls -l -a".toList SPACE_STR) = "ls -l -a".toList :=
  C9_round_trip "ls -l -a".toList (by decide) (by decide) (by decide) (by decide)
    (by simp [isspace])

/-- C10: the background flag is line-wide.  For a line that holds a character other than
whitespace, the flag `read_cmd` computes is true exactly when the last character of the
line that is not whitespace is `&`, and every call of `execute` made in the pass of the
loop of `main` on that line is given that flag. -/
theorem C10_background_flag_is_line_wide (env : Env) (name line : CStr)
    (h : ∃ c ∈ line, isspace c = false) :
    ((read_cmd line).2.1 = true
        ↔ (line.filter (fun c => !isspace c)).getLast? = some AMP_CHAR)
      ∧ ∀ command bg, Action.call_execute command bg ∈ (loop_iteration env name line).actions →
          bg = (read_cmd line).2.1 := by
  constructor
  · rw [read_cmd_flag line h, beq_iff_eq]
  · intro command bg hmem
    unfold loop_iteration at hmem
    dsimp only at hmem
    split at hmem
    · simp at hmem
    · split at hmem
      · simp at hmem
      · exact dispatch_call_flag env _ _ command bg hmem

/-- C10, an instance: the line `sleep 1 & pwd &` has the flag set, and both calls of
`execute` in its pass are given it. -/
theorem C10_background_flag_is_line_wide_witness :
    (∃ c ∈ "sleep 1 & pwd &\n".toList, isspace c = false)
      ∧ ((read_cmd "sleep 1 & pwd &\n".toList).2.1 = true
          ↔ ("sleep 1 & pwd &\n".toList.filter (fun c => !isspace c)).getLast? = some AMP_CHAR)
      ∧ ∀ command bg, Action.call_execute command bg
            ∈ (loop_iteration failing_env "my-shell".toList "sleep 1 & pwd &\n".toList).actions →
          bg = (read_cmd "sleep 1 & pwd &\n".toList).2.1 :=
  ⟨⟨'s', by decide, by decide⟩,
    C10_background_flag_is_line_wide failing_env "my-shell".toList "sleep 1 & pwd &\n".toList
      ⟨'s', by decide, by decide⟩⟩

/-! ## Further facts about `trim_ws` -/

theorem rdropWhile_append_of_exists (a b : CStr) (h : ∃ c ∈ b, isspace c = false) :
    (a ++ b).rdropWhile isspace = a ++ b.rdropWhile isspace := by
  induction b using List.reverseRecOn with
  | nil => obtain ⟨c, hc, _⟩ := h; simp at hc
  | append_singleton l x ih =>
    rw [← List.append_assoc]
    by_cases hx : isspace x = true
    · rw [List.rdropWhile_concat_pos _ _ _ hx, List.rdropWhile_concat_pos _ _ _ hx]
      apply ih
      obtain ⟨c, hc, hs⟩ := h
      rw [List.mem_append, List.mem_singleton] at hc
      rcases hc with hc | hc
      · exact ⟨c, hc, hs⟩
      · rw [hc, hx] at hs; exact absurd hs (by decide)
    · rw [List.rdropWhile_concat_neg _ _ _ hx, List.rdropWhile_concat_neg _ _ _ hx,
        List.append_assoc]

/-- The buffer `trim_ws` leaves: unchanged when every character is whitespace, cut after
the last other character otherwise. -/
theorem trim_ws_buffer (s : CStr) :
    (trim_ws s).1 = if s.all isspace then s else s.rdropWhile isspace := by
  rw [trim_ws_eq]
  by_cases hall : s.all isspace = true
  · rw [if_pos hall]
    rw [List.all_eq_true] at hall
    have hd : s.dropWhile isspace = [] := List.dropWhile_eq_nil_iff.mpr hall
    have ht : s.takeWhile isspace = s := List.takeWhile_eq_self_iff.mpr hall
    simp only [trimmed, hd, ht, List.rdropWhile_nil, List.append_nil]
  · rw [if_neg hall]
    have hex : ∃ c ∈ s.dropWhile isspace, isspace c = false := by
      rw [List.all_eq_true] at hall
      push_neg at hall
      obtain ⟨c, hc, hs⟩ := hall
      rw [← List.takeWhile_append_dropWhile isspace s, List.mem_append] at hc
      rcases hc with hc | hc
      · exact absurd (List.mem_takeWhile_imp hc) hs
      · exact ⟨c, hc, by simpa using hs⟩
    have key := rdropWhile_append_of_exists (s.takeWhile isspace) (s.dropWhile isspace) hex
    rw [List.takeWhile_append_dropWhile] at key
    rw [key, trimmed]

/-! ## Further claims -/

/-- C13: in the foreground, when `execvp` fails, `execute` prints nothing on the
diagnostic stream and returns the status `0`: its trace is the call of `execvp` alone. -/
theorem C13_foreground_failure_is_silent :
    execute failing_env "nosuchprog".toList false
      = ([Action.execvp "nosuchprog".toList ["nosuchprog".toList]], some 0) := by
  decide

/-- C14: in the parent branch of a background run `execute` calls `fork`, prints the job
line with the identifier `fork` returned, waits for that identifier and returns
`WEXITSTATUS` of the status word, which is bits 8 to 15 of it and at most 255; every
value `execute` returns, on any path, is at most 255. -/
theorem C14_background_parent_announces_then_waits (env : Env) (command : CStr)
    (hparent : is_child (env.fork_pid command) = false) :
    execute env command true
        = ([Action.fork, Action.job (env.fork_pid command),
            Action.waitpid (env.fork_pid command)],
           some (WEXITSTATUS (env.wait_status command)))
      ∧ WEXITSTATUS (env.wait_status command) = (env.wait_status command >>> 8) &&& 255
      ∧ WEXITSTATUS (env.wait_status command) ≤ 255
      ∧ ∀ (e : Env) (c : CStr) (bg : Bool) (v : Nat), (execute e c bg).2 = some v → v ≤ 255 := by
  have hW : ∀ st, WEXITSTATUS st ≤ 255 := by
    intro st
    unfold WEXITSTATUS
    omega
  refine ⟨?_, ?_, hW _, ?_⟩
  · unfold execute
    simp only [if_true, hparent, Bool.false_eq_true, if_false]
  · unfold WEXITSTATUS
    have h := Nat.and_pow_two_sub_one_eq_mod (env.wait_status command >>> 8) 8
    rw [Nat.shiftRight_eq_div_pow] at h ⊢
    exact h.symm
  · intro e c bg v hv
    unfold execute at hv
    cases bg with
    | true =>
      simp only [if_true] at hv
      by_cases hc : is_child (e.fork_pid c) = true
      · by_cases he : e.execvp_ok (get_command c) (get_tokens c SPACE_STR) = true
        · simp [hc, he] at hv
        · simp [hc, he, EXIT_FAILURE] at hv
          omega
      · simp only [hc, Bool.false_eq_true, if_false, Option.some.injEq] at hv
        rw [← hv]
        exact hW _
    | false =>
      simp only [Bool.false_eq_true, if_false] at hv
      by_cases he : e.execvp_ok (get_command c) (get_tokens c SPACE_STR) = true
      · simp [he] at hv
      · simp only [he, Bool.false_eq_true, if_false, Option.some.injEq] at hv
        rw [← hv]
        exact hW _

/-- C14, an instance: the command `sleep 1` in the parent of a `fork` that returned
4242. -/
theorem C14_background_parent_announces_then_waits_witness :
    execute failing_env "sleep 1".toList true
        = ([Action.fork, Action.job 4242, Action.waitpid 4242], some 0) :=
  (C14_background_parent_announces_then_waits failing_env "sleep 1".toList (by decide)).1

/-- C15: on the line `ls &  &pwd` the call `get_tokens(line, "&", out)` stores the piece
of two blanks as a segment, and on `ls &` tab `&pwd` the piece that is one tab:
whitespace-only pieces other than the single blank are kept. -/
theorem C15_whitespace_only_segment_is_stored :
    get_tokens "ls &  &pwd".toList AMP_STR = ["ls".toList, "  ".toList, "pwd".toList]
      ∧ get_tokens "ls &\t&pwd".toList AMP_STR = ["ls".toList, "\t".toList, "pwd".toList] := by
  decide

/-- C16: in the child of a background run whose `execvp` fails, `execute` prints the
message and returns `EXIT_FAILURE` to `main`, whose loop goes on in the child: it
dispatches the next segment, reads the next line, and on `exit` prints the farewell and
returns `EXIT_SUCCESS`. -/
theorem C16_failed_child_returns_into_loop :
    execute child_env "nosuch".toList true
        = ([Action.fork, Action.execvp "nosuch".toList ["nosuch".toList],
            Action.cannot_start "nosuch".toList], some EXIT_FAILURE)
      ∧ executed (dispatch child_env true ["nosuch".toList, "pwd".toList]).actions
        = ["nosuch".toList, "pwd".toList]
      ∧ (dispatch child_env true ["nosuch".toList, "pwd".toList]).alive = true
      ∧ main_loop child_env "my-shell".toList 3 "nosuch &\nexit\n".toList []
        = ([Action.prompt, Action.call_execute "nosuch".toList true, Action.fork,
            Action.execvp "nosuch".toList ["nosuch".toList],
            Action.cannot_start "nosuch".toList, Action.prompt, Action.farewell],
           Status.exited EXIT_SUCCESS) := by
  decide

/-- C17, against the claim: for the segment `cd`, tab, `/tmp` the first
whitespace-delimited word is `cd`, but `get_command` returns the whole segment and
`is_chdir` is false. -/
theorem C17_tab_does_not_end_the_word :
    first_word "cd\t/tmp".toList = "cd".toList
      ∧ get_command "cd\t/tmp".toList = "cd\t/tmp".toList
      ∧ get_command "cd\t/tmp".toList ≠ first_word "cd\t/tmp".toList
      ∧ is_chdir "cd\t/tmp".toList = false := by
  decide

/-- C17, as amended: for a segment that does not start with a blank, `get_command`
returns the text of the segment up to its first blank, and `is_chdir` holds exactly when
that text is `cd`. -/
theorem C17_get_command_cuts_at_first_blank (segment : CStr)
    (h : segment.head? ≠ some ' ') :
    get_command segment = segment.takeWhile (fun c => c != ' ')
      ∧ (is_chdir segment = true ↔ segment.takeWhile (fun c => c != ' ') = "cd".toList) := by
  have hfun : (fun d : Char => !SPACE_STR.elem d) = (fun c => c != ' ') := by
    funext d
    by_cases hd : d = ' '
    · subst hd; rfl
    · simp [SPACE_STR, hd]
  have hcmd : get_command segment = segment.takeWhile (fun c => c != ' ') := by
    unfold get_command
    cases segment with
    | nil => rfl
    | cons c cs =>
      have hc : SPACE_STR.elem c = false := by
        have : c ≠ ' ' := fun e => h (by rw [e]; rfl)
        simpa [SPACE_STR] using this
      rw [strtok_of_head c cs SPACE_STR hc]
      simp only
      rw [List.takeWhile_cons_of_neg (by simpa using hc), List.nil_append, hfun]
  refine ⟨hcmd, ?_⟩
  unfold is_chdir
  rw [hcmd, beq_iff_eq]
  rfl

/-- C17 as amended, an instance: the segment `cd /tmp`. -/
theorem C17_get_command_cuts_at_first_blank_witness :
    get_command "cd /tmp".toList = "cd".toList ∧ is_chdir "cd /tmp".toList = true :=
  ⟨(C17_get_command_cuts_at_first_blank "cd /tmp".toList (by decide)).1.trans (by decide),
    (C17_get_command_cuts_at_first_blank "cd /tmp".toList (by decide)).2.mpr (by decide)⟩

/-- C19: on the line `ls & pwd` the second entry `get_tokens` stores is allocated with 4
bytes, the value 3 that `trim_ws` returned plus one, while `strcpy` writes the 4
characters of ` pwd` and the terminator, 5 bytes. -/
theorem C19_allocation_is_short_for_leading_blank :
    get_tokens_alloc "ls & pwd".toList AMP_STR = [(3, "ls".toList), (4, " pwd".toList)]
      ∧ (trim_ws " pwd".toList).2 = 3
      ∧ (trim_ws " pwd".toList).1.length = 4
      ∧ ¬ ∀ entry ∈ get_tokens_alloc "ls & pwd".toList AMP_STR, entry.2.length + 1 ≤ entry.1 := by
  decide

/-- C20: the exact effect of `trim_ws` on every buffer: the value returned is the length
of the text without its leading and trailing whitespace; the buffer is left unchanged
when every character is whitespace (the empty buffer included) and loses only its
trailing whitespace otherwise; the leading whitespace always stays. -/
theorem C20_trim_ws_exact_effect (s : CStr) :
    (trim_ws s).2 = (trimmed s).length
      ∧ (trim_ws s).1 = (if s.all isspace then s else s.rdropWhile isspace)
      ∧ ∃ t, (trim_ws s).1 = s.takeWhile isspace ++ t := by
  refine ⟨?_, trim_ws_buffer s, trimmed s, ?_⟩
  · rw [trim_ws_eq]
  · rw [trim_ws_eq]

/-! ## Facts about the exit check and the order of dispatch -/

theorem is_not_exit_false_iff (s : CStr) : is_not_exit s = false ↔ s = EXIT_CMD_STR := by
  unfold is_not_exit
  constructor
  · intro h
    have h2 : EXIT_CMD_STR = s := by simpa using h
    exact h2.symm
  · intro h
    subst h
    decide

/-- The segment the `for` loop adopts is the text `exit`. -/
theorem dispatch_adopted_exit (env : Env) (bg : Bool) (segs : List CStr) (c : CStr)
    (h : (dispatch env bg segs).adopted = some c) : c = EXIT_CMD_STR := by
  induction segs with
  | nil => simp [dispatch] at h
  | cons seg rest ih =>
    by_cases hx : is_not_exit seg = true
    · unfold dispatch at h
      simp only [hx, Bool.not_true, Bool.false_eq_true, if_false] at h
      cases hrun : (execute env seg bg).2 with
      | none => rw [hrun] at h; simp at h
      | some v => rw [hrun] at h; exact ih h
    · have hx2 : is_not_exit seg = false := by simpa using hx
      rw [dispatch_exit env bg seg rest hx2] at h
      simp only [Option.some.injEq] at h
      rw [← h]
      exact (is_not_exit_false_iff seg).mp hx2

/-- When `get_tokens` leaves the text `exit` in the buffer of a line that does not start
with `&`, the first segment it stored is `exit`. -/
theorem get_tokens_of_buffer_exit (buf : CStr) (h0 : buf.head? ≠ some AMP_CHAR)
    (h : get_tokens_buffer buf AMP_STR = EXIT_CMD_STR) :
    ∃ rest, get_tokens buf AMP_STR = EXIT_CMD_STR :: rest := by
  cases buf with
  | nil => exact absurd h (by decide)
  | cons c cs =>
    have hc : AMP_STR.elem c = false := by
      have : c ≠ AMP_CHAR := fun e => h0 (by rw [e]; rfl)
      simpa [AMP_STR, AMP_CHAR] using this
    unfold get_tokens_buffer at h
    unfold get_tokens get_tokens_alloc
    rw [strtok_of_head c cs AMP_STR hc] at h ⊢
    simp only at h ⊢
    rw [List.takeWhile_cons_of_neg (by simpa using hc), List.nil_append] at h
    rw [get_tokens_loop, h]
    have hne : is_not_empty_string EXIT_CMD_STR = true := by decide
    simp only [hne, if_true, List.map_cons]
    exact ⟨_, rfl⟩

/-- After one pass of the `while` loop the test of the buffer against `exit` gives the
value of the explicit flag. -/
theorem loop_iteration_continue (env : Env) (name line : CStr) :
    is_not_exit (loop_iteration env name line).fullCmd = should_continue env line := by
  have hhead : ∀ (buf : CStr) (c : Char), buf.head? = some c → c ≠ 'e' →
      is_not_exit buf = true := by
    intro buf c hb hce
    by_contra hcon
    have hcon2 : is_not_exit buf = false := by simpa using hcon
    rw [(is_not_exit_false_iff buf).mp hcon2] at hb
    simp only [EXIT_CMD_STR, List.head?_cons, Option.some.injEq] at hb
    exact hce hb.symm
  unfold loop_iteration should_continue
  dsimp only
  by_cases h1 : ((read_cmd line).1.head? == some AMP_CHAR
      || (read_cmd line).1.head? == some PIPE_CHAR) = true
  · rw [if_pos h1, if_pos h1]
    dsimp only
    rw [Bool.or_eq_true, beq_iff_eq, beq_iff_eq] at h1
    rcases h1 with h1 | h1
    · exact hhead _ _ h1 (by decide)
    · exact hhead _ _ h1 (by decide)
  · rw [if_neg h1, if_neg h1]
    by_cases h2 : ((read_cmd line).1.head? == some NEWLINE_CHAR) = true
    · rw [if_pos h2, if_pos h2]
      dsimp only
      rw [beq_iff_eq] at h2
      exact hhead _ _ h2 (by decide)
    · rw [if_neg h2, if_neg h2]
      dsimp only
      cases hadopt : (dispatch env (read_cmd line).2.1
          (get_tokens (read_cmd line).1 AMP_STR)).adopted with
      | some c =>
        have hc := dispatch_adopted_exit env _ _ c hadopt
        simp only [Option.isNone_some]
        exact (is_not_exit_false_iff c).mpr hc
      | none =>
        simp only [Option.isNone_none]
        by_contra hcon
        have hcon2 : is_not_exit (get_tokens_buffer (read_cmd line).1 AMP_STR) = false := by
          simpa using hcon
        have hamp : (read_cmd line).1.head? ≠ some AMP_CHAR := by
          intro e
          apply h1
          rw [e]
          rfl
        obtain ⟨rest, hrest⟩ := get_tokens_of_buffer_exit _ hamp
          ((is_not_exit_false_iff _).mp hcon2)
        rw [hrest, dispatch_exit env _ EXIT_CMD_STR rest (by decide)] at hadopt
        simp at hadopt

/-- The `for` loop when every call of `execute` it makes returns, that is the call for
each segment before the first `exit`: the rounds of those segments, in order, and the
first `exit` adopted. -/
theorem dispatch_of_returns (env : Env) (bg : Bool) (segs : List CStr)
    (hret : ∀ seg ∈ segs.takeWhile is_not_exit, (execute env seg bg).2.isSome = true) :
    dispatch env bg segs =
      { actions := (segs.takeWhile is_not_exit).flatMap (segment_actions env bg)
        adopted := (segs.dropWhile is_not_exit).head?
        alive := true } := by
  induction segs with
  | nil => rfl
  | cons seg rest ih =>
    by_cases hx : is_not_exit seg = true
    · rw [List.takeWhile_cons_of_pos hx] at hret
      have hsome := hret seg (List.mem_cons_self _ _)
      obtain ⟨v, hv⟩ := Option.isSome_iff_exists.mp hsome
      have ih2 := ih (fun s hs => hret s (List.mem_cons_of_mem _ hs))
      unfold dispatch
      simp only [hx, Bool.not_true, Bool.false_eq_true, if_false, hv, ih2]
      rw [List.takeWhile_cons_of_pos hx, List.dropWhile_cons_of_pos hx, List.flatMap_cons]
      simp only [segment_actions, List.append_assoc, List.cons_append]
    · have hx2 : is_not_exit seg = false := by simpa using hx
      rw [dispatch_exit env bg seg rest hx2, List.takeWhile_cons_of_neg hx,
        List.dropWhile_cons_of_neg hx]
      rfl

theorem executed_append (a b : List Action) : executed (a ++ b) = executed a ++ executed b := by
  induction a with
  | nil => rfl
  | cons x t ih =>
    cases x <;> simp [executed, ih]

/-- The trace of `execute` holds no command handed to `execute` by `main`. -/
theorem executed_execute (env : Env) (command : CStr) (bg : Bool) :
    executed (execute env command bg).1 = [] := by
  unfold execute
  cases bg with
  | true =>
    simp only [if_true]
    by_cases hc : is_child (env.fork_pid command) = true
    · by_cases he : env.execvp_ok (get_command command) (get_tokens command SPACE_STR) = true
      · simp [hc, he, executed]
      · simp [hc, he, executed]
    · simp [hc, executed]
  | false =>
    simp only [Bool.false_eq_true, if_false]
    by_cases he : env.execvp_ok (get_command command) (get_tokens command SPACE_STR) = true
    · simp [he, executed]
    · simp [he, executed]

theorem executed_segment_actions (env : Env) (bg : Bool) (segs : List CStr) :
    executed (segs.flatMap (segment_actions env bg)) = segs := by
  induction segs with
  | nil => rfl
  | cons seg rest ih =>
    rw [List.flatMap_cons, executed_append, ih]
    unfold segment_actions
    rw [executed_append]
    by_cases hcd : is_chdir seg = true
    · simp [hcd, executed, executed_execute]
    · simp [hcd, executed, executed_execute]

theorem takeWhile_length_lt_iff (p : CStr → Bool) (l : List CStr) :
    (l.takeWhile p).length < l.length ↔ ((l.dropWhile p).head?).isSome = true := by
  have h := congrArg List.length (List.takeWhile_append_dropWhile p l)
  rw [List.length_append] at h
  cases hd : l.dropWhile p with
  | nil =>
    rw [hd] at h
    simp only [List.length_nil, Nat.add_zero] at h
    simp [h]
  | cons a t =>
    rw [hd] at h
    simp only [List.length_cons] at h
    simp only [List.head?_cons, Option.isSome_some, iff_true]
    omega

/-- C11: dispatch in insertion order.  On a line that passes both checks of `main`, when
every call of `execute` that is made returns (the calls for the segments before the
first `exit`; nothing is assumed of `exit` or of the segments after it), the trace of
the pass is made of the rounds of the segments before the first `exit`, in order, and of
nothing else; the commands handed to `execute` are exactly those segments; the buffer
ends as `exit`, which ends the `while` loop, exactly when a segment `exit` exists; and
the shell process is still there. -/
theorem C11_dispatch_in_order (env : Env) (name line : CStr)
    (h1 : ((read_cmd line).1.head? == some AMP_CHAR
      || (read_cmd line).1.head? == some PIPE_CHAR) = false)
    (h2 : ((read_cmd line).1.head? == some NEWLINE_CHAR) = false)
    (hret : ∀ seg ∈ (get_tokens (read_cmd line).1 AMP_STR).takeWhile is_not_exit,
      (execute env seg (read_cmd line).2.1).2.isSome = true) :
    (loop_iteration env name line).actions
        = ((get_tokens (read_cmd line).1 AMP_STR).takeWhile is_not_exit).flatMap
            (segment_actions env (read_cmd line).2.1)
      ∧ executed (loop_iteration env name line).actions
        = (get_tokens (read_cmd line).1 AMP_STR).takeWhile is_not_exit
      ∧ (is_not_exit (loop_iteration env name line).fullCmd = false
          ↔ ((get_tokens (read_cmd line).1 AMP_STR).takeWhile is_not_exit).length
              < (get_tokens (read_cmd line).1 AMP_STR).length)
      ∧ (loop_iteration env name line).alive = true := by
  have hd := dispatch_of_returns env (read_cmd line).2.1 _ hret
  have hact : (loop_iteration env name line).actions
      = ((get_tokens (read_cmd line).1 AMP_STR).takeWhile is_not_exit).flatMap
          (segment_actions env (read_cmd line).2.1) := by
    rw [loop_iteration_dispatch env name line h1 h2, hd]
  refine ⟨hact, ?_, ?_, ?_⟩
  · rw [hact, executed_segment_actions]
  · rw [loop_iteration_continue, takeWhile_length_lt_iff]
    unfold should_continue
    simp only [h1, h2, Bool.false_eq_true, if_false, hd]
    cases ((get_tokens (read_cmd line).1 AMP_STR).dropWhile is_not_exit).head? <;> simp
  · rw [loop_iteration_dispatch env name line h1 h2, hd]

/-- C11, an instance: on the line `ls &exit&pwd`, where `pwd` is the one program that
can be started, the call made for `ls` returns, only `ls` is handed to `execute`, the
buffer ends as `exit` and the shell process is still there. -/
theorem C11_dispatch_in_order_witness :
    executed (loop_iteration pwd_env "my-shell".toList "ls &exit&pwd\n".toList).actions
        = ["ls".toList]
      ∧ is_not_exit
          (loop_iteration pwd_env "my-shell".toList "ls &exit&pwd\n".toList).fullCmd
        = false
      ∧ (loop_iteration pwd_env "my-shell".toList "ls &exit&pwd\n".toList).alive = true
      ∧ (execute pwd_env "pwd".toList false).2 = none :=
  ⟨(C11_dispatch_in_order pwd_env "my-shell".toList "ls &exit&pwd\n".toList
      (by decide) (by decide) (by decide)).2.1.trans (by decide),
    (C11_dispatch_in_order pwd_env "my-shell".toList "ls &exit&pwd\n".toList
      (by decide) (by decide) (by decide)).2.2.1.mpr (by decide),
    (C11_dispatch_in_order pwd_env "my-shell".toList "ls &exit&pwd\n".toList
      (by decide) (by decide) (by decide)).2.2.2,
    by decide⟩

/-- C18: the comparison of the buffer is equivalent to the explicit flag.  After one pass
of the `while` loop on any line, `is_not_exit(fullCmd)` has the value of the explicit
flag, so the buffer is `exit` exactly when the exit check of the `for` loop fired; on
the path of the rejected token, on the path of the bare newline and when no segment was
adopted the buffer is not `exit`. -/
theorem C18_buffer_test_is_the_flag (env : Env) (name line : CStr) :
    is_not_exit (loop_iteration env name line).fullCmd = should_continue env line
      ∧ ((loop_iteration env name line).fullCmd = "exit".toList
          ↔ should_continue env line = false) := by
  have h := loop_iteration_continue env name line
  refine ⟨h, ?_⟩
  rw [← h, is_not_exit_false_iff]
  rfl

/-! ## Facts about the number of entries `get_tokens` stores -/

theorem strtok_save_nil_of_none (s delim : CStr) (h : (strtok s delim).token = none) :
    (strtok s delim).save = [] := by
  unfold strtok at h ⊢
  cases hd : s.dropWhile (fun c => delim.elem c) with
  | nil => rfl
  | cons c cs => rw [hd] at h; simp at h

/-- Each call of `strtok` with the delimiter `&` that leaves text to scan has consumed
one `&`. -/
theorem strtok_amp_count (s : CStr) (h : (strtok s AMP_STR).save ≠ []) :
    (strtok s AMP_STR).save.count AMP_CHAR + 1 ≤ s.count AMP_CHAR := by
  unfold strtok at h ⊢
  have hsub : (s.dropWhile (fun c => AMP_STR.elem c)).count AMP_CHAR ≤ s.count AMP_CHAR :=
    (List.dropWhile_sublist _).count_le _
  cases hd : s.dropWhile (fun c => AMP_STR.elem c) with
  | nil => rw [hd] at h; exact absurd rfl h
  | cons c cs =>
    rw [hd] at h hsub
    simp only at h ⊢
    have hsub2 : ((c :: cs).dropWhile (fun d => !AMP_STR.elem d)).count AMP_CHAR
        ≤ (c :: cs).count AMP_CHAR := (List.dropWhile_sublist _).count_le _
    have hnot := List.head?_dropWhile_not (fun d => !AMP_STR.elem d) (c :: cs)
    cases hy : (c :: cs).dropWhile (fun d => !AMP_STR.elem d) with
    | nil => rw [hy] at h; exact absurd rfl h
    | cons y ys =>
      rw [hy] at hsub2 hnot
      have hyamp : y = AMP_CHAR := by simpa [AMP_STR, AMP_CHAR] using hnot
      rw [hyamp, List.count_cons_self] at hsub2
      rw [List.drop_one, List.tail_cons]
      omega

/-- The number of entries the loop of `get_tokens` stores is bounded by the `&`
characters left to scan. -/
theorem get_tokens_loop_length (n : Nat) (token : Option CStr) (save : CStr) :
    (get_tokens_loop n token save).length
      ≤ (if token.isSome then 1 else 0) + (if save = [] then 0 else save.count AMP_CHAR + 1) := by
  induction n generalizing token save with
  | zero => simp [get_tokens_loop]
  | succ n ih =>
    cases token with
    | none => simp [get_tokens_loop]
    | some t =>
      have hih := ih (strtok save AMP_STR).token (strtok save AMP_STR).save
      have hstep : (get_tokens_loop (n + 1) (some t) save).length
          ≤ 1 + (get_tokens_loop n (strtok save AMP_STR).token (strtok save AMP_STR).save).length := by
        rw [get_tokens_loop]
        split
        · rw [List.length_cons]; omega
        · omega
      have hnext : (if (strtok save AMP_STR).token.isSome then 1 else 0)
          + (if (strtok save AMP_STR).save = [] then 0
              else (strtok save AMP_STR).save.count AMP_CHAR + 1)
          ≤ (if save = [] then 0 else save.count AMP_CHAR + 1) := by
        by_cases hs : save = []
        · subst hs
          have h1 : (strtok [] AMP_STR).token = none := rfl
          have h2 : (strtok [] AMP_STR).save = [] := rfl
          simp [h1, h2]
        · rw [if_neg hs]
          by_cases hn : (strtok save AMP_STR).save = []
          · rw [if_pos hn]
            split <;> omega
          · rw [if_neg hn]
            have := strtok_amp_count save hn
            split <;> omega
      simp only [Option.isSome_some, if_true]
      omega

/-- The number of segments `get_tokens` stores for the delimiter `&` is at most the
number of `&` characters of the line plus one. -/
theorem get_tokens_amp_length (line : CStr) :
    (get_tokens line AMP_STR).length ≤ line.count AMP_CHAR + 1 := by
  unfold get_tokens get_tokens_alloc
  rw [List.length_map]
  have h := get_tokens_loop_length (line.length + 1) (strtok line AMP_STR).token
    (strtok line AMP_STR).save
  by_cases hn : (strtok line AMP_STR).save = []
  · rw [if_pos hn] at h
    dsimp only
    split at h <;> omega
  · rw [if_neg hn] at h
    have := strtok_amp_count line hn
    dsimp only
    split at h <;> omega

/-- C12, against the claim: the line of 17 one-letter commands between `&` has 33
characters, and `get_tokens` stores 17 segments for it: it writes at the indices 16
and 17 of the array. -/
theorem C12_seventeen_segments_overflow :
    "a&b&c&d&e&f&g&h&i&j&k&l&m&n&o&p&q".toList.length ≤ COMMAND_MAX_LENGTH - 1
      ∧ (get_tokens "a&b&c&d&e&f&g&h&i&j&k&l&m&n&o&p&q".toList AMP_STR).length = 17
      ∧ 16 ∈ get_tokens_indices "a&b&c&d&e&f&g&h&i&j&k&l&m&n&o&p&q".toList AMP_STR
      ∧ 17 ∈ get_tokens_indices "a&b&c&d&e&f&g&h&i&j&k&l&m&n&o&p&q".toList AMP_STR
      ∧ ¬ ∀ i ∈ get_tokens_indices "a&b&c&d&e&f&g&h&i&j&k&l&m&n&o&p&q".toList AMP_STR,
          i < MAX_COMMANDS_COUNT := by
  decide

/-- C12, as amended: for a line with at most 14 characters `&`, `get_tokens` stores at
most `MAX_COMMANDS_COUNT` entries, the sentinel included, and writes at no index from
`MAX_COMMANDS_COUNT` on. -/
theorem C12_capacity_holds_up_to_14_ampersands (line : CStr)
    (h : line.count AMP_CHAR ≤ 14) :
    (get_tokens line AMP_STR).length + 1 ≤ MAX_COMMANDS_COUNT
      ∧ ∀ i ∈ get_tokens_indices line AMP_STR, i < MAX_COMMANDS_COUNT := by
  have hl := get_tokens_amp_length line
  have hcap : (get_tokens line AMP_STR).length + 1 ≤ MAX_COMMANDS_COUNT := by
    unfold MAX_COMMANDS_COUNT
    omega
  refine ⟨hcap, ?_⟩
  intro i hi
  unfold get_tokens_indices at hi
  rw [List.mem_range] at hi
  omega

/-- C12 as amended, an instance: the line `ls & pwd &whoami` with two `&`. -/
theorem C12_capacity_holds_up_to_14_ampersands_witness :
    "ls & pwd &whoami".toList.count AMP_CHAR ≤ 14
      ∧ (get_tokens "ls & pwd &whoami".toList AMP_STR).length + 1 ≤ MAX_COMMANDS_COUNT :=
  ⟨by decide,
    (C12_capacity_holds_up_to_14_ampersands "ls & pwd &whoami".toList (by decide)).1⟩

end MyShell
